import Mathlib

/-!
Shallow embedding of the selective refresh coordinator from
`homeassistant/components/nibe_heatpump/__init__.py` (class `Coordinator`),
together with proofs of the specified properties.

Modelling conventions:
* A coil address is a `Nat`; a coil value (`int | str | float` in the source)
  is the inductive `Value`, with Python floats modelled as rationals.
* `self.data` (a Python dict from address to coil) is an insertion-ordered
  association list `Cache`; `insertD` mirrors dict item assignment (update in
  place when the key exists, append otherwise) and `lookupD` mirrors
  `dict.get`.
* The coil database of the heat pump is a predicate `known : Address → Bool`:
  `get_coil_by_address` raises `CoilNotFoundException` exactly when
  `known a = false`.
* The connection's read path is `conn : Address → Nat → Option Value`, giving
  for each address the outcome of the k-th read attempt (`none` models a
  `CoilReadException`, i.e. a transient failure).  The tenacity wrapper
  `@retry(retry=retry_if_exception_type(CoilReadException),
  stop=stop_after_attempt(COIL_READ_RETRIES))` is `read_coil`.
* Listener registration state `self._listeners` is a list of
  `(callback identity, context)` pairs in registration order; the Python
  context is a `set` of addresses, modelled as the list of addresses in the
  order the set iterates.
* Invoking `update_callback()` is recorded as a `Notif` event that also
  snapshots the cache at the moment of the call (callbacks pull state from
  the cache, so the snapshot is what a callback would observe).
-/

set_option maxRecDepth 4096

namespace NibeHeatPump

/-- Coil address (`coil.address : int` in the source). -/
abbrev Address := Nat

/-- Identity of one registered update callback. -/
abbrev ListenerId := Nat

/-- A coil value: Python `int | str | float`, floats modelled as `Rat`. -/
inductive Value where
  | int (n : Int)
  | str (s : String)
  | float (q : Rat)
deriving DecidableEq, Repr

/-- The coordinator cache `self.data`: an insertion-ordered dict from
address to the value of the cached coil. -/
abbrev Cache := List (Address × Value)

/-- Python `dict.get`: first binding of the key, if any. -/
def lookupD {β : Type} : List (Nat × β) → Nat → Option β
  | [], _ => none
  | (k, b) :: rest, a => if k = a then some b else lookupD rest a

/-- Python dict item assignment `d[a] = b`: replace in place when the key is
present, append at the end otherwise. -/
def insertD {β : Type} : List (Nat × β) → Nat → β → List (Nat × β)
  | [], a, b => [(a, b)]
  | (k, x) :: rest, a, b =>
      if k = a then (k, b) :: rest else (k, x) :: insertD rest a b

/-- The keys of an association list, in insertion order. -/
def keys {β : Type} (d : List (Nat × β)) : List Nat :=
  d.map Prod.fst

/-- The listener registry `self._listeners.values()` in registration order:
each entry is the callback identity together with its context set of
addresses. -/
abbrev Listeners := List (ListenerId × List Address)

/-- One step of building the `callbacks` dict:
`callbacks[address].append(update_callback)` on a `defaultdict(list)`. -/
def appendCb (cbs : List (Address × List ListenerId)) (a : Address)
    (l : ListenerId) : List (Address × List ListenerId) :=
  match lookupD cbs a with
  | some cl => insertD cbs a (cl ++ [l])
  | none => cbs ++ [(a, [l])]

/-- Processing one listener of the registry in `_async_update_data`:
`for address in context: callbacks[address].append(update_callback)`. -/
def addListener (cbs : List (Address × List ListenerId))
    (pr : ListenerId × List Address) : List (Address × List ListenerId) :=
  pr.2.foldl (fun c a => appendCb c a pr.1) cbs

/-- The `callbacks : dict[int, list[CALLBACK_TYPE]]` built at the start of
`_async_update_data` by inverting the listener registry. -/
def buildCallbacks (listeners : Listeners) : List (Address × List ListenerId) :=
  listeners.foldl addListener []

/-- The union (as a list, with multiplicity) of all registered listeners'
interest sets. -/
def interestUnion (listeners : Listeners) : List Address :=
  listeners.foldl (fun acc pr => acc ++ pr.2) []

/-- `COIL_READ_RETRIES = 5` in the source: the tenacity
`stop_after_attempt` bound. -/
def COIL_READ_RETRIES : Nat := 5

/-- The retry loop of the tenacity wrapper: try attempts
`attempt, attempt+1, ...` while fuel remains, returning the first success;
`none` when every attempt raises `CoilReadException`. -/
def readRetry (conn : Address → Nat → Option Value) (a : Address) :
    Nat → Nat → Option Value
  | 0, _ => none
  | fuel + 1, attempt =>
      match conn a attempt with
      | some v => some v
      | none => readRetry conn a fuel (attempt + 1)

/-- The decorated `read_coil` closure of `_async_update_data`: up to
`COIL_READ_RETRIES` attempts, retrying only on `CoilReadException`;
`none` models the final `RetryError`. -/
def read_coil (conn : Address → Nat → Option Value) (a : Address) :
    Option Value :=
  readRetry conn a COIL_READ_RETRIES 0

/-- One recorded invocation of `update_callback()` during a refresh:
which callback, from which address's `callback_list` it was invoked, and
the cache contents (`self.data`) at the moment of the call. -/
structure Notif where
  listener : ListenerId
  address : Address
  cache : Cache
deriving DecidableEq, Repr

/-- The mutable state threaded through the per-address loop of
`_async_update_data`: `self.data`, the local `result` dict, the addresses
whose resolution was attempted so far (in iteration order), and the
callback invocations issued so far. -/
structure RefreshState where
  cache : Cache
  result : Cache
  attempted : List Address
  notifs : List Notif
deriving Repr

/-- The observable outcome of one call to `_async_update_data`: the final
`self.data`, the addresses attempted in iteration order, the callback
invocation trace, and either the returned `result` dict (`Except.ok`) or
the raised `UpdateFailed` (`Except.error ()`). -/
structure UpdateResult where
  cache : Cache
  attempted : List Address
  notifs : List Notif
  outcome : Except Unit Cache
deriving Repr

/-- The `for address, callback_list in callbacks.items()` loop of
`_async_update_data`.  For each address: if the coil is unknown,
`CoilNotFoundException` is caught and the address skipped (callbacks still
run); if `read_coil` succeeds, `self.data` and `result` are updated before
the callbacks run; if all retries fail, `UpdateFailed` aborts the loop. -/
def updateGo (known : Address → Bool) (conn : Address → Nat → Option Value) :
    List (Address × List ListenerId) → RefreshState → UpdateResult
  | [], st => ⟨st.cache, st.attempted, st.notifs, Except.ok st.result⟩
  | (a, cl) :: rest, st =>
      if known a then
        match read_coil conn a with
        | some v =>
            updateGo known conn rest
              ⟨insertD st.cache a v, insertD st.result a v,
                st.attempted ++ [a],
                st.notifs ++ cl.map (fun l => ⟨l, a, insertD st.cache a v⟩)⟩
        | none => ⟨st.cache, st.attempted ++ [a], st.notifs, Except.error ()⟩
      else
        updateGo known conn rest
          ⟨st.cache, st.result, st.attempted ++ [a],
            st.notifs ++ cl.map (fun l => ⟨l, a, st.cache⟩)⟩

/-- `Coordinator._async_update_data`: build the `callbacks` dict from the
listener registry, then run the per-address loop starting from the current
cache with an empty `result`. -/
def update_data (known : Address → Bool) (conn : Address → Nat → Option Value)
    (listeners : Listeners) (cache0 : Cache) : UpdateResult :=
  updateGo known conn (buildCallbacks listeners) ⟨cache0, [], [], []⟩

/-- Modelled from the spec: `DataUpdateCoordinator.async_update_listeners`
is part of the home-assistant helper framework and is not among the source
files; per its contract it invokes the update callback of every currently
registered listener.  Returns the callbacks invoked, in registration
order. -/
def async_update_listeners (listeners : Listeners) : List ListenerId :=
  listeners.map Prod.fst

/-- The observable outcome of `Coordinator.async_write_coil`: the cache
after the call, the callbacks notified, and whether the connection's write
exception propagated to the caller. -/
structure WriteResult where
  cache : Cache
  notified : List ListenerId
  raised : Bool
deriving DecidableEq, Repr

/-- The pre-write mutation `coil.value = value` of `async_write_coil`: it
updates the caller's coil object in place before the write is attempted.
`aliased` records whether that object is the very coil stored in the
cache for address `a` — as on the standard `CoilEntity` path, where
`_handle_coordinator_update` sets `self._coil` to
`coordinator.data.get(coil.address)` — in which case the cache
immediately shows the new value.  With no cached entry at `a` there is
no cached object to alias, so the cache is unaffected. -/
def writeMutate (cache : Cache) (a : Address) (v : Value) (aliased : Bool) :
    Cache :=
  if aliased && (lookupD cache a).isSome then insertD cache a v else cache

/-- `Coordinator.async_write_coil`: first `coil.value = value`, mutating
the cached coil whenever the caller's coil aliases it (`writeMutate`);
then send the coil through `connection.write_coil` (exactly one attempt,
`wconn 0`; `wconn` gives the success of each hypothetical attempt so that
absence of retry is observable).  On failure the exception propagates,
leaving the pre-write mutation in place; on success, only when
`if self.data:` is non-empty, store the returned coil and call
`async_update_listeners`. -/
def async_write_coil (wconn : Nat → Bool) (listeners : Listeners)
    (cache : Cache) (a : Address) (v : Value) (aliased : Bool) :
    WriteResult :=
  let cache1 := writeMutate cache a v aliased
  if wconn 0 then
    if cache1.isEmpty then ⟨cache1, [], false⟩
    else ⟨insertD cache1 a v, async_update_listeners listeners, false⟩
  else ⟨cache1, [], true⟩

/-- `Coordinator.get_coil_value`: `self.data.get(coil.address)` and, when a
coil object is found (coil objects are always truthy), its `value`. -/
def get_coil_value (cache : Cache) (a : Address) : Option Value :=
  lookupD cache a

/-- Python truthiness of a coil value: `0`, `0.0` and `""` are falsy. -/
def truthy : Value → Bool
  | .int n => n ≠ 0
  | .str s => s ≠ ""
  | .float q => q ≠ 0

/-- Python `float(value)` on a coil value; the conversion of a string is a
parameter `pf` (with `none` modelling a raised `ValueError`), since the
claims do not depend on Python's float grammar. -/
def pyFloat (pf : String → Option Rat) : Value → Option Rat
  | .int n => some (n : Rat)
  | .str s => pf s
  | .float q => some q

/-- `Coordinator.get_coil_float`: `if value := self.get_coil_value(coil):
return float(value)` and `None` otherwise; `Except.error ()` models a
`ValueError` escaping from `float`. -/
def get_coil_float (pf : String → Option Rat) (cache : Cache) (a : Address) :
    Except Unit (Option Rat) :=
  match get_coil_value cache a with
  | some v =>
      if truthy v then
        match pyFloat pf v with
        | some q => Except.ok (some q)
        | none => Except.error ()
      else Except.ok none
  | none => Except.ok none

/-- Total number of occurrences of callback `m` across all callback lists
of a callbacks dict. -/
def cbsListCount (cbs : List (Address × List ListenerId)) (m : ListenerId) :
    Nat :=
  (cbs.map (fun pr => pr.2.count m)).sum

/-- Number of addresses the registry entries with callback `m` watch, in
total. -/
def watchTotal (L : Listeners) (m : ListenerId) : Nat :=
  (L.map (fun pr => if pr.1 = m then pr.2.length else 0)).sum

/-- Number of recorded `update_callback()` invocations of callback `m` in a
trace. -/
def noteCount (ns : List Notif) (m : ListenerId) : Nat :=
  (ns.filter (fun n => n.listener == m)).length

/-! ### Association-list lemmas -/

theorem lookupD_insertD_self {β : Type} (d : List (Nat × β)) (a : Nat) (b : β) :
    lookupD (insertD d a b) a = some b := by
  induction d with
  | nil => simp [insertD, lookupD]
  | cons hd tl ih =>
    obtain ⟨k, x⟩ := hd
    by_cases hk : k = a
    · simp [insertD, hk, lookupD]
    · simp [insertD, hk, lookupD, ih]

theorem lookupD_insertD_ne {β : Type} (d : List (Nat × β)) (a x : Nat) (b : β)
    (h : x ≠ a) : lookupD (insertD d a b) x = lookupD d x := by
  induction d with
  | nil => simp [insertD, lookupD, Ne.symm h]
  | cons hd tl ih =>
    obtain ⟨k, y⟩ := hd
    by_cases hk : k = a
    · subst hk
      simp [insertD, lookupD, Ne.symm h]
    · simp [insertD, hk, lookupD, ih]

theorem insertD_of_lookupD_none {β : Type} (d : List (Nat × β)) (a : Nat)
    (b : β) (h : lookupD d a = none) : insertD d a b = d ++ [(a, b)] := by
  induction d with
  | nil => simp [insertD]
  | cons hd tl ih =>
    obtain ⟨k, y⟩ := hd
    by_cases hk : k = a
    · simp [lookupD, hk] at h
    · simp [lookupD, hk] at h
      simp [insertD, hk, ih h]

theorem mem_keys_iff_lookupD {β : Type} (d : List (Nat × β)) (a : Nat) :
    a ∈ keys d ↔ (lookupD d a).isSome := by
  induction d with
  | nil => simp [keys, lookupD]
  | cons hd tl ih =>
    obtain ⟨k, y⟩ := hd
    by_cases hk : k = a
    · simp [keys, lookupD, hk]
    · simp [keys, lookupD, hk, Ne.symm hk] at ih ⊢
      exact ih

theorem keys_insertD_of_lookupD_some {β : Type} (d : List (Nat × β))
    (a : Nat) (b c : β) (h : lookupD d a = some c) :
    keys (insertD d a b) = keys d := by
  induction d with
  | nil => simp [lookupD] at h
  | cons hd tl ih =>
    obtain ⟨k, y⟩ := hd
    by_cases hk : k = a
    · simp [insertD, hk, keys]
    · simp [lookupD, hk] at h
      simp [insertD, hk, keys] at ih ⊢
      exact ih h

theorem mem_keys_insertD {β : Type} (d : List (Nat × β)) (a x : Nat) (b : β) :
    x ∈ keys (insertD d a b) ↔ x ∈ keys d ∨ x = a := by
  induction d with
  | nil => simp [insertD, keys]
  | cons hd tl ih =>
    obtain ⟨k, y⟩ := hd
    by_cases hk : k = a
    · subst hk
      simp [insertD, keys]
      tauto
    · simp [insertD, hk, keys] at ih ⊢
      tauto

theorem nodup_keys_insertD {β : Type} (d : List (Nat × β)) (a : Nat) (b : β)
    (h : (keys d).Nodup) : (keys (insertD d a b)).Nodup := by
  cases hl : lookupD d a with
  | some c => rw [keys_insertD_of_lookupD_some d a b c hl]; exact h
  | none =>
    rw [insertD_of_lookupD_none d a b hl]
    have ha : a ∉ keys d := by
      rw [mem_keys_iff_lookupD, hl]
      simp
    simp [keys] at h ha ⊢
    exact List.Nodup.append h (List.nodup_singleton a)
      (by simpa [List.disjoint_singleton] using ha)

/-! ### Lemmas on the callbacks dict -/

theorem appendCb_nil (a : Address) (l : ListenerId) :
    appendCb [] a l = [(a, [l])] := by
  simp [appendCb, lookupD]

theorem appendCb_cons_self (kl : List ListenerId)
    (rest : List (Address × List ListenerId)) (a : Address) (l : ListenerId) :
    appendCb ((a, kl) :: rest) a l = (a, kl ++ [l]) :: rest := by
  simp [appendCb, lookupD, insertD]

theorem appendCb_cons_ne (k : Address) (kl : List ListenerId)
    (rest : List (Address × List ListenerId)) (a : Address) (l : ListenerId)
    (hk : k ≠ a) :
    appendCb ((k, kl) :: rest) a l = (k, kl) :: appendCb rest a l := by
  cases h : lookupD rest a with
  | some cl => simp [appendCb, lookupD, hk, h, insertD]
  | none => simp [appendCb, lookupD, hk, h, insertD]

theorem mem_keys_appendCb (cbs : List (Address × List ListenerId))
    (a : Address) (l : ListenerId) (x : Address) :
    x ∈ keys (appendCb cbs a l) ↔ x ∈ keys cbs ∨ x = a := by
  induction cbs with
  | nil => simp [appendCb_nil, keys]
  | cons hd tl ih =>
    obtain ⟨k, kl⟩ := hd
    by_cases hk : k = a
    · subst hk
      simp [appendCb_cons_self, keys]
      tauto
    · simp [appendCb_cons_ne k kl tl a l hk, keys] at ih ⊢
      tauto

theorem nodup_keys_appendCb (cbs : List (Address × List ListenerId))
    (a : Address) (l : ListenerId) (h : (keys cbs).Nodup) :
    (keys (appendCb cbs a l)).Nodup := by
  induction cbs with
  | nil => simp [appendCb_nil, keys]
  | cons hd tl ih =>
    obtain ⟨k, kl⟩ := hd
    by_cases hk : k = a
    · subst hk
      simpa [appendCb_cons_self, keys] using h
    · rw [appendCb_cons_ne k kl tl a l hk]
      have hck : keys ((k, kl) :: appendCb tl a l) =
          k :: keys (appendCb tl a l) := rfl
      have hck' : keys ((k, kl) :: tl) = k :: keys tl := rfl
      rw [hck, List.nodup_cons]
      rw [hck', List.nodup_cons] at h
      refine ⟨?_, ih h.2⟩
      rw [mem_keys_appendCb]
      rintro (hmem | rfl)
      · exact h.1 hmem
      · exact hk rfl

theorem mem_keys_foldl_appendCb (int : List Address) :
    ∀ (cbs : List (Address × List ListenerId)) (l : ListenerId) (x : Address),
      x ∈ keys (int.foldl (fun c a => appendCb c a l) cbs) ↔
        x ∈ keys cbs ∨ x ∈ int := by
  induction int with
  | nil => simp
  | cons hd tl ih =>
    intro cbs l x
    simp only [List.foldl_cons, ih, mem_keys_appendCb, List.mem_cons]
    tauto

theorem nodup_keys_foldl_appendCb (int : List Address) :
    ∀ (cbs : List (Address × List ListenerId)) (l : ListenerId),
      (keys cbs).Nodup →
      (keys (int.foldl (fun c a => appendCb c a l) cbs)).Nodup := by
  induction int with
  | nil => simp only [List.foldl_nil]; exact fun _ _ h => h
  | cons hd tl ih =>
    intro cbs l h
    exact ih (appendCb cbs hd l) l (nodup_keys_appendCb cbs hd l h)

theorem mem_keys_addListener (cbs : List (Address × List ListenerId))
    (pr : ListenerId × List Address) (x : Address) :
    x ∈ keys (addListener cbs pr) ↔ x ∈ keys cbs ∨ x ∈ pr.2 := by
  exact mem_keys_foldl_appendCb pr.2 cbs pr.1 x

theorem nodup_keys_addListener (cbs : List (Address × List ListenerId))
    (pr : ListenerId × List Address) (h : (keys cbs).Nodup) :
    (keys (addListener cbs pr)).Nodup :=
  nodup_keys_foldl_appendCb pr.2 cbs pr.1 h

theorem mem_keys_foldl_addListener (L : Listeners) :
    ∀ (cbs : List (Address × List ListenerId)) (x : Address),
      x ∈ keys (L.foldl addListener cbs) ↔
        x ∈ keys cbs ∨ ∃ pr, pr ∈ L ∧ x ∈ pr.2 := by
  induction L with
  | nil => simp
  | cons hd tl ih =>
    intro cbs x
    simp only [List.foldl_cons, ih, mem_keys_addListener, List.mem_cons]
    constructor
    · rintro ((h | h) | ⟨pr, hpr, hx⟩)
      · exact Or.inl h
      · exact Or.inr ⟨hd, Or.inl rfl, h⟩
      · exact Or.inr ⟨pr, Or.inr hpr, hx⟩
    · rintro (h | ⟨pr, (rfl | hpr), hx⟩)
      · exact Or.inl (Or.inl h)
      · exact Or.inl (Or.inr hx)
      · exact Or.inr ⟨pr, hpr, hx⟩

theorem nodup_keys_buildCallbacks (L : Listeners) :
    (keys (buildCallbacks L)).Nodup := by
  have aux : ∀ (M : Listeners) (cbs : List (Address × List ListenerId)),
      (keys cbs).Nodup → (keys (M.foldl addListener cbs)).Nodup := by
    intro M
    induction M with
    | nil => simp only [List.foldl_nil]; exact fun _ h => h
    | cons hd tl ih =>
      intro cbs h
      exact ih (addListener cbs hd) (nodup_keys_addListener cbs hd h)
  exact aux L [] (by simp [keys])

theorem mem_interestUnion (L : Listeners) (x : Address) :
    x ∈ interestUnion L ↔ ∃ pr, pr ∈ L ∧ x ∈ pr.2 := by
  have aux : ∀ (M : Listeners) (acc : List Address),
      x ∈ M.foldl (fun acc pr => acc ++ pr.2) acc ↔
        x ∈ acc ∨ ∃ pr, pr ∈ M ∧ x ∈ pr.2 := by
    intro M
    induction M with
    | nil => simp
    | cons hd tl ih =>
      intro acc
      simp only [List.foldl_cons, ih, List.mem_append, List.mem_cons]
      constructor
      · rintro ((h | h) | ⟨pr, hpr, hx⟩)
        · exact Or.inl h
        · exact Or.inr ⟨hd, Or.inl rfl, h⟩
        · exact Or.inr ⟨pr, Or.inr hpr, hx⟩
      · rintro (h | ⟨pr, (rfl | hpr), hx⟩)
        · exact Or.inl (Or.inl h)
        · exact Or.inl (Or.inr hx)
        · exact Or.inr ⟨pr, hpr, hx⟩
  simpa using aux L []

theorem mem_keys_buildCallbacks (L : Listeners) (x : Address) :
    x ∈ keys (buildCallbacks L) ↔ x ∈ interestUnion L := by
  rw [buildCallbacks, mem_keys_foldl_addListener, mem_interestUnion]
  simp [keys]

/-! ### Lemmas on the retry wrapper -/

theorem readRetry_none (conn : Address → Nat → Option Value) (a : Address) :
    ∀ (fuel attempt : Nat),
      (∀ k, attempt ≤ k → k < attempt + fuel → conn a k = none) →
      readRetry conn a fuel attempt = none := by
  intro fuel
  induction fuel with
  | zero => intro attempt _; rfl
  | succ n ih =>
    intro attempt h
    have h0 : conn a attempt = none := h attempt le_rfl (by omega)
    simp only [readRetry, h0]
    exact ih (attempt + 1) (fun k hk1 hk2 => h k (by omega) (by omega))

theorem read_coil_none_of_fail (conn : Address → Nat → Option Value)
    (a : Address) (h : ∀ k, k < COIL_READ_RETRIES → conn a k = none) :
    read_coil conn a = none :=
  readRetry_none conn a COIL_READ_RETRIES 0
    (fun k _ hk2 => h k (by simpa using hk2))

/-! ### Lemmas on the refresh loop -/

theorem updateGo_cons_some (known : Address → Bool)
    (conn : Address → Nat → Option Value) (a : Address)
    (cl : List ListenerId) (rest : List (Address × List ListenerId))
    (st : RefreshState) (v : Value) (hka : known a = true)
    (hr : read_coil conn a = some v) :
    updateGo known conn ((a, cl) :: rest) st =
      updateGo known conn rest
        ⟨insertD st.cache a v, insertD st.result a v, st.attempted ++ [a],
          st.notifs ++ cl.map (fun l => ⟨l, a, insertD st.cache a v⟩)⟩ := by
  simp [updateGo, hka, hr]

theorem updateGo_cons_none (known : Address → Bool)
    (conn : Address → Nat → Option Value) (a : Address)
    (cl : List ListenerId) (rest : List (Address × List ListenerId))
    (st : RefreshState) (hka : known a = true)
    (hr : read_coil conn a = none) :
    updateGo known conn ((a, cl) :: rest) st =
      ⟨st.cache, st.attempted ++ [a], st.notifs, Except.error ()⟩ := by
  simp [updateGo, hka, hr]

theorem updateGo_cons_unknown (known : Address → Bool)
    (conn : Address → Nat → Option Value) (a : Address)
    (cl : List ListenerId) (rest : List (Address × List ListenerId))
    (st : RefreshState) (hka : known a = false) :
    updateGo known conn ((a, cl) :: rest) st =
      updateGo known conn rest
        ⟨st.cache, st.result, st.attempted ++ [a],
          st.notifs ++ cl.map (fun l => ⟨l, a, st.cache⟩)⟩ := by
  simp [updateGo, hka]

theorem updateGo_attempted_mem (known : Address → Bool)
    (conn : Address → Nat → Option Value) :
    ∀ (cbs : List (Address × List ListenerId)) (st : RefreshState)
      (x : Address), x ∈ (updateGo known conn cbs st).attempted →
        x ∈ st.attempted ∨ x ∈ keys cbs := by
  intro cbs
  induction cbs with
  | nil =>
    intro st x hx
    simp only [updateGo] at hx
    exact Or.inl hx
  | cons hd rest ih =>
    obtain ⟨a, cl⟩ := hd
    intro st x hx
    have hkeys : keys ((a, cl) :: rest) = a :: keys rest := rfl
    cases hka : known a with
    | true =>
      cases hr : read_coil conn a with
      | some v =>
        rw [updateGo_cons_some known conn a cl rest st v hka hr] at hx
        rcases ih _ x hx with h | h
        · rcases List.mem_append.mp h with h' | h'
          · exact Or.inl h'
          · simp at h'
            subst h'
            simp [hkeys]
        · simp [hkeys, h]
      | none =>
        rw [updateGo_cons_none known conn a cl rest st hka hr] at hx
        rcases List.mem_append.mp hx with h' | h'
        · exact Or.inl h'
        · simp at h'
          subst h'
          simp [hkeys]
    | false =>
      rw [updateGo_cons_unknown known conn a cl rest st hka] at hx
      rcases ih _ x hx with h | h
      · rcases List.mem_append.mp h with h' | h'
        · exact Or.inl h'
        · simp at h'
          subst h'
          simp [hkeys]
      · simp [hkeys, h]

theorem updateGo_attempted_of_ok (known : Address → Bool)
    (conn : Address → Nat → Option Value) :
    ∀ (cbs : List (Address × List ListenerId)) (st : RefreshState)
      (res : Cache), (updateGo known conn cbs st).outcome = Except.ok res →
        (updateGo known conn cbs st).attempted = st.attempted ++ keys cbs := by
  intro cbs
  induction cbs with
  | nil =>
    intro st res _
    simp [updateGo, keys]
  | cons hd rest ih =>
    obtain ⟨a, cl⟩ := hd
    intro st res hres
    have hkeys : keys ((a, cl) :: rest) = a :: keys rest := rfl
    cases hka : known a with
    | true =>
      cases hr : read_coil conn a with
      | some v =>
        rw [updateGo_cons_some known conn a cl rest st v hka hr] at hres ⊢
        rw [ih _ res hres]
        simp [hkeys]
      | none =>
        rw [updateGo_cons_none known conn a cl rest st hka hr] at hres
        simp at hres
    | false =>
      rw [updateGo_cons_unknown known conn a cl rest st hka] at hres ⊢
      rw [ih _ res hres]
      simp [hkeys]

theorem updateGo_cache_stable (known : Address → Bool)
    (conn : Address → Nat → Option Value) :
    ∀ (cbs : List (Address × List ListenerId)) (st : RefreshState)
      (b : Address), b ∉ keys cbs →
        lookupD (updateGo known conn cbs st).cache b = lookupD st.cache b := by
  intro cbs
  induction cbs with
  | nil => intro st b _; rfl
  | cons hd rest ih =>
    obtain ⟨a, cl⟩ := hd
    intro st b hb
    have hkeys : keys ((a, cl) :: rest) = a :: keys rest := rfl
    rw [hkeys] at hb
    simp only [List.mem_cons, not_or] at hb
    cases hka : known a with
    | true =>
      cases hr : read_coil conn a with
      | some v =>
        rw [updateGo_cons_some known conn a cl rest st v hka hr]
        rw [ih _ b hb.2]
        exact lookupD_insertD_ne st.cache a b v hb.1
      | none => rw [updateGo_cons_none known conn a cl rest st hka hr]
    | false =>
      rw [updateGo_cons_unknown known conn a cl rest st hka]
      exact ih _ b hb.2

theorem updateGo_unknown_cache (known : Address → Bool)
    (conn : Address → Nat → Option Value) :
    ∀ (cbs : List (Address × List ListenerId)) (st : RefreshState)
      (x : Address), known x = false →
        lookupD (updateGo known conn cbs st).cache x = lookupD st.cache x := by
  intro cbs
  induction cbs with
  | nil => intro st x _; rfl
  | cons hd rest ih =>
    obtain ⟨a, cl⟩ := hd
    intro st x hx
    cases hka : known a with
    | true =>
      have hax : x ≠ a := by
        intro h
        rw [h, hka] at hx
        exact Bool.noConfusion hx
      cases hr : read_coil conn a with
      | some v =>
        rw [updateGo_cons_some known conn a cl rest st v hka hr]
        rw [ih _ x hx]
        exact lookupD_insertD_ne st.cache a x v hax
      | none => rw [updateGo_cons_none known conn a cl rest st hka hr]
    | false =>
      rw [updateGo_cons_unknown known conn a cl rest st hka]
      exact ih _ x hx

theorem updateGo_unknown_result (known : Address → Bool)
    (conn : Address → Nat → Option Value) :
    ∀ (cbs : List (Address × List ListenerId)) (st : RefreshState)
      (x : Address) (res : Cache), known x = false →
        (updateGo known conn cbs st).outcome = Except.ok res →
        lookupD res x = lookupD st.result x := by
  intro cbs
  induction cbs with
  | nil =>
    intro st x res _ hres
    simp only [updateGo, Except.ok.injEq] at hres
    rw [hres]
  | cons hd rest ih =>
    obtain ⟨a, cl⟩ := hd
    intro st x res hx hres
    cases hka : known a with
    | true =>
      have hax : x ≠ a := by
        intro h
        rw [h, hka] at hx
        exact Bool.noConfusion hx
      cases hr : read_coil conn a with
      | some v =>
        rw [updateGo_cons_some known conn a cl rest st v hka hr] at hres
        rw [ih _ x res hx hres]
        exact lookupD_insertD_ne st.result a x v hax
      | none =>
        rw [updateGo_cons_none known conn a cl rest st hka hr] at hres
        simp at hres
    | false =>
      rw [updateGo_cons_unknown known conn a cl rest st hka] at hres
      exact ih ⟨st.cache, st.result, st.attempted ++ [a],
        st.notifs ++ cl.map (fun l => ⟨l, a, st.cache⟩)⟩ x res hx hres

theorem updateGo_ok_of_reads (known : Address → Bool)
    (conn : Address → Nat → Option Value) :
    ∀ (cbs : List (Address × List ListenerId)) (st : RefreshState),
      (∀ b, b ∈ keys cbs → known b = true → read_coil conn b ≠ none) →
      ∃ res, (updateGo known conn cbs st).outcome = Except.ok res := by
  intro cbs
  induction cbs with
  | nil => intro st _; exact ⟨st.result, rfl⟩
  | cons hd rest ih =>
    obtain ⟨a, cl⟩ := hd
    intro st h
    have hkeys : keys ((a, cl) :: rest) = a :: keys rest := rfl
    have hrest : ∀ b, b ∈ keys rest → known b = true →
        read_coil conn b ≠ none := by
      intro b hb
      exact h b (by rw [hkeys]; exact List.mem_cons_of_mem a hb)
    cases hka : known a with
    | true =>
      cases hr : read_coil conn a with
      | some v =>
        rw [updateGo_cons_some known conn a cl rest st v hka hr]
        exact ih _ hrest
      | none =>
        exact absurd hr (h a (by rw [hkeys]; exact List.mem_cons_self a _) hka)
    | false =>
      rw [updateGo_cons_unknown known conn a cl rest st hka]
      exact ih _ hrest

theorem updateGo_abort (known : Address → Bool)
    (conn : Address → Nat → Option Value) :
    ∀ (cbs : List (Address × List ListenerId)) (st : RefreshState)
      (a : Address), (keys cbs).Nodup → a ∉ st.attempted →
      a ∈ (updateGo known conn cbs st).attempted → known a = true →
      read_coil conn a = none →
      (updateGo known conn cbs st).outcome = Except.error () ∧
      (updateGo known conn cbs st).attempted.getLast? = some a ∧
      (∃ r, st.attempted ++ keys cbs =
        (updateGo known conn cbs st).attempted ++ r) ∧
      (∀ b, b ∈ (updateGo known conn cbs st).attempted → b ∉ st.attempted →
        b ≠ a → known b = true → ∃ v, read_coil conn b = some v ∧
          lookupD (updateGo known conn cbs st).cache b = some v) := by
  intro cbs
  induction cbs with
  | nil =>
    intro st a _ ha hx _ _
    exact absurd hx ha
  | cons hd rest ih =>
    obtain ⟨x, cl⟩ := hd
    intro st a hnd ha hx hka hrd
    have hkeys : keys ((x, cl) :: rest) = x :: keys rest := rfl
    rw [hkeys, List.nodup_cons] at hnd
    cases hkx : known x with
    | true =>
      cases hr : read_coil conn x with
      | some v =>
        have hax : a ≠ x := by
          intro h
          rw [h, hr] at hrd
          exact Option.noConfusion hrd
        rw [updateGo_cons_some known conn x cl rest st v hkx hr] at hx ⊢
        set st' : RefreshState :=
          ⟨insertD st.cache x v, insertD st.result x v, st.attempted ++ [x],
            st.notifs ++ cl.map (fun l => ⟨l, x, insertD st.cache x v⟩)⟩
          with hst'
        have ha' : a ∉ st'.attempted := by
          rw [hst']
          simp [hax, ha]
        obtain ⟨h1, h2, ⟨r, h3⟩, h4⟩ := ih st' a hnd.2 ha' hx hka hrd
        refine ⟨h1, h2, ⟨r, ?_⟩, ?_⟩
        · rw [← h3, hst']
          simp [hkeys]
        · intro b hb hbs hba hkb
          by_cases hbx : b = x
          · subst hbx
            refine ⟨v, hr, ?_⟩
            rw [updateGo_cache_stable known conn rest st' b hnd.1]
            rw [hst']
            exact lookupD_insertD_self st.cache b v
          · have hbs' : b ∉ st'.attempted := by
              rw [hst']
              simp [hbx, hbs]
            exact h4 b hb hbs' hba hkb
      | none =>
        rw [updateGo_cons_none known conn x cl rest st hkx hr] at hx ⊢
        have hax : a = x := by
          rcases List.mem_append.mp hx with h | h
          · exact absurd h ha
          · simpa using h
        subst hax
        refine ⟨rfl, ?_, ⟨keys rest, ?_⟩, ?_⟩
        · simp
        · simp [hkeys]
        · intro b hb hbs hba _
          rcases List.mem_append.mp hb with h | h
          · exact absurd h hbs
          · simp at h
            exact absurd h hba
    | false =>
      have hax : a ≠ x := by
        intro h
        rw [h, hkx] at hka
        exact Bool.noConfusion hka
      rw [updateGo_cons_unknown known conn x cl rest st hkx] at hx ⊢
      set st' : RefreshState :=
        ⟨st.cache, st.result, st.attempted ++ [x],
          st.notifs ++ cl.map (fun l => ⟨l, x, st.cache⟩)⟩ with hst'
      have ha' : a ∉ st'.attempted := by
        rw [hst']
        simp [hax, ha]
      obtain ⟨h1, h2, ⟨r, h3⟩, h4⟩ := ih st' a hnd.2 ha' hx hka hrd
      refine ⟨h1, h2, ⟨r, ?_⟩, ?_⟩
      · rw [← h3, hst']
        simp [hkeys]
      · intro b hb hbs hba hkb
        by_cases hbx : b = x
        · subst hbx
          rw [hkb] at hkx
          exact Bool.noConfusion hkx
        · have hbs' : b ∉ st'.attempted := by
            rw [hst']
            simp [hbx, hbs]
          exact h4 b hb hbs' hba hkb

theorem updateGo_notifs_fresh (known : Address → Bool)
    (conn : Address → Nat → Option Value) :
    ∀ (cbs : List (Address × List ListenerId)) (st : RefreshState),
      (∀ n, n ∈ st.notifs → known n.address = true →
        ∀ v, read_coil conn n.address = some v →
          lookupD n.cache n.address = some v) →
      ∀ n, n ∈ (updateGo known conn cbs st).notifs →
        known n.address = true → ∀ v, read_coil conn n.address = some v →
          lookupD n.cache n.address = some v := by
  intro cbs
  induction cbs with
  | nil =>
    intro st hst n hn
    exact hst n hn
  | cons hd rest ih =>
    obtain ⟨a, cl⟩ := hd
    intro st hst n hn
    cases hka : known a with
    | true =>
      cases hr : read_coil conn a with
      | some v =>
        rw [updateGo_cons_some known conn a cl rest st v hka hr] at hn
        refine ih _ ?_ n hn
        intro n' hn' hkn' v' hv'
        rcases List.mem_append.mp hn' with h | h
        · exact hst n' h hkn' v' hv'
        · obtain ⟨l, _, rfl⟩ := List.mem_map.mp h
          simp only at hv' ⊢
          rw [hr] at hv'
          obtain rfl : v = v' := Option.some.inj hv'
          exact lookupD_insertD_self st.cache a v
      | none =>
        rw [updateGo_cons_none known conn a cl rest st hka hr] at hn
        exact hst n hn
    | false =>
      rw [updateGo_cons_unknown known conn a cl rest st hka] at hn
      refine ih _ ?_ n hn
      intro n' hn' hkn' v' hv'
      rcases List.mem_append.mp hn' with h | h
      · exact hst n' h hkn' v' hv'
      · obtain ⟨l, _, rfl⟩ := List.mem_map.mp h
        simp only at hkn'
        rw [hka] at hkn'
        exact Bool.noConfusion hkn'

theorem updateGo_result_spec (known : Address → Bool)
    (conn : Address → Nat → Option Value) :
    ∀ (cbs : List (Address × List ListenerId)) (st : RefreshState)
      (res : Cache), (keys cbs).Nodup →
      (∀ x, x ∈ keys cbs → lookupD st.result x = none) →
      (updateGo known conn cbs st).outcome = Except.ok res →
      ∀ x v, lookupD res x = some v ↔
        (lookupD st.result x = some v ∨
          (x ∈ keys cbs ∧ known x = true ∧ read_coil conn x = some v)) := by
  intro cbs
  induction cbs with
  | nil =>
    intro st res _ _ hres x v
    simp only [updateGo, Except.ok.injEq] at hres
    subst hres
    simp [keys]
  | cons hd rest ih =>
    obtain ⟨a, cl⟩ := hd
    intro st res hnd hpre hres x v
    have hkeys : keys ((a, cl) :: rest) = a :: keys rest := rfl
    rw [hkeys, List.nodup_cons] at hnd
    cases hka : known a with
    | true =>
      cases hr : read_coil conn a with
      | some v0 =>
        rw [updateGo_cons_some known conn a cl rest st v0 hka hr] at hres
        set st' : RefreshState :=
          ⟨insertD st.cache a v0, insertD st.result a v0, st.attempted ++ [a],
            st.notifs ++ cl.map (fun l => ⟨l, a, insertD st.cache a v0⟩)⟩
          with hst'
        have hpre' : ∀ y, y ∈ keys rest → lookupD st'.result y = none := by
          intro y hy
          have hya : y ≠ a := fun h => hnd.1 (h ▸ hy)
          rw [hst']
          simp only
          rw [lookupD_insertD_ne st.result a y v0 hya]
          exact hpre y (by rw [hkeys]; exact List.mem_cons_of_mem a hy)
        have hiff := ih st' res hnd.2 hpre' hres x v
        by_cases hxa : x = a
        · subst hxa
          rw [hiff, hst']
          simp only
          rw [lookupD_insertD_self st.result x v0]
          rw [hpre x (by rw [hkeys]; exact List.mem_cons_self x _)]
          have hxr : x ∉ keys rest := hnd.1
          rw [hkeys]
          simp [hxr, hka, hr]
        · rw [hiff, hst']
          simp only
          rw [lookupD_insertD_ne st.result a x v0 hxa]
          rw [hkeys]
          simp [hxa]
      | none =>
        rw [updateGo_cons_none known conn a cl rest st hka hr] at hres
        simp at hres
    | false =>
      rw [updateGo_cons_unknown known conn a cl rest st hka] at hres
      have hpre' : ∀ y, y ∈ keys rest →
          lookupD (RefreshState.mk st.cache st.result (st.attempted ++ [a])
            (st.notifs ++ cl.map (fun l => ⟨l, a, st.cache⟩))).result y =
            none := by
        intro y hy
        exact hpre y (by rw [hkeys]; exact List.mem_cons_of_mem a hy)
      have hiff := ih _ res hnd.2 hpre' hres x v
      rw [hiff]
      simp only
      by_cases hxa : x = a
      · subst hxa
        rw [hkeys]
        have hxr : x ∉ keys rest := hnd.1
        simp [hxr, hka]
      · rw [hkeys]
        simp [hxa]

/-! ### Counting callback invocations -/

theorem cbsListCount_appendCb (cbs : List (Address × List ListenerId))
    (a : Address) (l m : ListenerId) :
    cbsListCount (appendCb cbs a l) m =
      cbsListCount cbs m + (if l = m then 1 else 0) := by
  induction cbs with
  | nil =>
    rw [appendCb_nil]
    simp [cbsListCount, List.count_singleton]
  | cons hd rest ih =>
    obtain ⟨k, kl⟩ := hd
    by_cases hk : k = a
    · subst hk
      rw [appendCb_cons_self]
      simp [cbsListCount, List.count_append, List.count_singleton]
      by_cases h : l = m
      · simp [h]
        omega
      · simp [h, Ne.symm h]
    · rw [appendCb_cons_ne k kl rest a l hk]
      simp [cbsListCount] at ih ⊢
      omega

theorem cbsListCount_foldl_appendCb (int : List Address) :
    ∀ (cbs : List (Address × List ListenerId)) (l m : ListenerId),
      cbsListCount (int.foldl (fun c a => appendCb c a l) cbs) m =
        cbsListCount cbs m + (if l = m then int.length else 0) := by
  induction int with
  | nil => simp
  | cons hd tl ih =>
    intro cbs l m
    simp only [List.foldl_cons, List.length_cons]
    rw [ih (appendCb cbs hd l) l m, cbsListCount_appendCb]
    by_cases h : l = m
    · simp [h]
      omega
    · simp [h]

theorem cbsListCount_addListener (cbs : List (Address × List ListenerId))
    (pr : ListenerId × List Address) (m : ListenerId) :
    cbsListCount (addListener cbs pr) m =
      cbsListCount cbs m + (if pr.1 = m then pr.2.length else 0) :=
  cbsListCount_foldl_appendCb pr.2 cbs pr.1 m

theorem cbsListCount_buildCallbacks (L : Listeners) (m : ListenerId) :
    cbsListCount (buildCallbacks L) m = watchTotal L m := by
  have aux : ∀ (M : Listeners) (cbs : List (Address × List ListenerId)),
      cbsListCount (M.foldl addListener cbs) m =
        cbsListCount cbs m + watchTotal M m := by
    intro M
    induction M with
    | nil => simp [watchTotal]
    | cons hd tl ih =>
      intro cbs
      simp only [List.foldl_cons]
      rw [ih (addListener cbs hd), cbsListCount_addListener]
      simp [watchTotal]
      omega
  have h := aux L []
  rw [buildCallbacks, h]
  simp [cbsListCount]

theorem watchTotal_of_not_mem (m : ListenerId) :
    ∀ (L : Listeners), m ∉ L.map Prod.fst → watchTotal L m = 0 := by
  intro L
  induction L with
  | nil => intro _; simp [watchTotal]
  | cons hd tl ih =>
    intro h
    simp only [List.map_cons, List.mem_cons, not_or] at h
    have h1 : hd.1 ≠ m := fun he => h.1 he.symm
    have h2 := ih h.2
    simp only [watchTotal, List.map_cons, List.sum_cons, if_neg h1,
      Nat.zero_add]
    simpa [watchTotal] using h2

theorem watchTotal_of_mem (m : ListenerId) (interest : List Address) :
    ∀ (L : Listeners), (L.map Prod.fst).Nodup → (m, interest) ∈ L →
      watchTotal L m = interest.length := by
  intro L
  induction L with
  | nil => intro _ hm; simp at hm
  | cons hd tl ih =>
    intro hnd hm
    simp only [List.map_cons, List.nodup_cons] at hnd
    rcases List.mem_cons.mp hm with h | h
    · subst h
      simp only [watchTotal, List.map_cons, List.sum_cons, if_pos rfl]
      have h0 : watchTotal tl m = 0 := watchTotal_of_not_mem m tl hnd.1
      simp only [watchTotal] at h0
      simp [h0]
    · have hhd : hd.1 ≠ m := by
        intro he
        have hmem : m ∈ List.map Prod.fst tl := List.mem_map_of_mem Prod.fst h
        rw [← he] at hmem
        exact hnd.1 hmem
      simp only [watchTotal, List.map_cons, List.sum_cons, if_neg hhd,
        Nat.zero_add]
      simpa [watchTotal] using ih hnd.2 h

theorem noteCount_append (ns1 ns2 : List Notif) (m : ListenerId) :
    noteCount (ns1 ++ ns2) m = noteCount ns1 m + noteCount ns2 m := by
  simp [noteCount, List.filter_append]

theorem noteCount_map_mk (cl : List ListenerId) (a : Address) (c : Cache)
    (m : ListenerId) :
    noteCount (cl.map (fun l => ⟨l, a, c⟩)) m = cl.count m := by
  induction cl with
  | nil => simp [noteCount]
  | cons hd tl ih =>
    simp only [List.map_cons, noteCount, List.filter_cons] at ih ⊢
    by_cases h : hd = m
    · simp [h, List.count_cons]
      simpa [noteCount] using ih
    · simp [h, List.count_cons]
      simpa [noteCount, h] using ih

theorem updateGo_noteCount (known : Address → Bool)
    (conn : Address → Nat → Option Value) :
    ∀ (cbs : List (Address × List ListenerId)) (st : RefreshState)
      (res : Cache) (m : ListenerId),
      (updateGo known conn cbs st).outcome = Except.ok res →
      noteCount (updateGo known conn cbs st).notifs m =
        noteCount st.notifs m + cbsListCount cbs m := by
  intro cbs
  induction cbs with
  | nil =>
    intro st res m _
    simp [updateGo, cbsListCount]
  | cons hd rest ih =>
    obtain ⟨a, cl⟩ := hd
    intro st res m hres
    cases hka : known a with
    | true =>
      cases hr : read_coil conn a with
      | some v =>
        rw [updateGo_cons_some known conn a cl rest st v hka hr] at hres ⊢
        rw [ih _ res m hres]
        simp only [noteCount_append, noteCount_map_mk]
        simp [cbsListCount]
        omega
      | none =>
        rw [updateGo_cons_none known conn a cl rest st hka hr] at hres
        simp at hres
    | false =>
      rw [updateGo_cons_unknown known conn a cl rest st hka] at hres ⊢
      rw [ih _ res m hres]
      simp only [noteCount_append, noteCount_map_mk]
      simp [cbsListCount]
      omega

/-! ### Write-path lemmas -/

theorem insertD_ne_nil {β : Type} (d : List (Nat × β)) (a : Nat) (b : β) :
    insertD d a b ≠ [] := by
  cases d with
  | nil => simp [insertD]
  | cons hd tl =>
    obtain ⟨k, x⟩ := hd
    by_cases hk : k = a <;> simp [insertD, hk]

theorem writeMutate_not_aliased (c : Cache) (a : Address) (v : Value) :
    writeMutate c a v false = c := by
  simp [writeMutate]

theorem writeMutate_nil (a : Address) (v : Value) (al : Bool) :
    writeMutate [] a v al = [] := by
  simp [writeMutate, lookupD]

theorem lookupD_writeMutate_ne (c : Cache) (a x : Address) (v : Value)
    (al : Bool) (hx : x ≠ a) :
    lookupD (writeMutate c a v al) x = lookupD c x := by
  unfold writeMutate
  split
  · exact lookupD_insertD_ne c a x v hx
  · rfl

theorem keys_writeMutate (c : Cache) (a : Address) (v : Value) (al : Bool) :
    keys (writeMutate c a v al) = keys c := by
  by_cases h : (al && (lookupD c a).isSome) = true
  · unfold writeMutate
    rw [if_pos h]
    have hs : (lookupD c a).isSome = true := by
      cases al
      · simp at h
      · simpa using h
    obtain ⟨w, hw⟩ := Option.isSome_iff_exists.mp hs
    exact keys_insertD_of_lookupD_some c a v w hw
  · unfold writeMutate
    rw [if_neg h]

theorem lookupD_writeMutate_self (c : Cache) (a : Address) (v w : Value)
    (hw : lookupD c a = some w) :
    lookupD (writeMutate c a v true) a = some v := by
  unfold writeMutate
  rw [hw]
  simpa using lookupD_insertD_self c a v

theorem async_write_coil_ok_empty (wconn : Nat → Bool) (L : Listeners)
    (a : Address) (v : Value) (al : Bool) (hw : wconn 0 = true) :
    async_write_coil wconn L [] a v al = ⟨[], [], false⟩ := by
  simp [async_write_coil, writeMutate, lookupD, hw]

theorem async_write_coil_ok_nonempty (wconn : Nat → Bool) (L : Listeners)
    (c : Cache) (a : Address) (v : Value) (al : Bool) (hw : wconn 0 = true)
    (hc : c ≠ []) :
    async_write_coil wconn L c a v al =
      ⟨insertD (writeMutate c a v al) a v, async_update_listeners L,
        false⟩ := by
  have hne : (writeMutate c a v al).isEmpty = false := by
    unfold writeMutate
    split
    · cases h : insertD c a v with
      | nil => exact absurd h (insertD_ne_nil c a v)
      | cons hd tl => rfl
    · cases c with
      | nil => exact absurd rfl hc
      | cons hd tl => rfl
  simp [async_write_coil, hw, hne]

theorem async_write_coil_fail (wconn : Nat → Bool) (L : Listeners)
    (c : Cache) (a : Address) (v : Value) (al : Bool)
    (hw : wconn 0 = false) :
    async_write_coil wconn L c a v al = ⟨writeMutate c a v al, [], true⟩ := by
  simp [async_write_coil, hw]

/-! ### The claims -/

/-- Claim C1, amended: during one refresh cycle the coordinator only ever
attempts to fetch addresses in the union of the registered listeners'
interest sets, and when the cycle completes without aborting the set of
attempted addresses is exactly that union.  (The claim's "no fewer"
direction fails for aborted cycles, see the counterexample.) -/
theorem C1_fetch_set (known : Address → Bool)
    (conn : Address → Nat → Option Value) (L : Listeners) (c0 : Cache) :
    (∀ x, x ∈ (update_data known conn L c0).attempted →
      x ∈ interestUnion L) ∧
    (∀ res, (update_data known conn L c0).outcome = Except.ok res →
      ∀ x, x ∈ interestUnion L →
        x ∈ (update_data known conn L c0).attempted) := by
  constructor
  · intro x hx
    rcases updateGo_attempted_mem known conn (buildCallbacks L)
        ⟨c0, [], [], []⟩ x hx with h | h
    · simp at h
    · exact (mem_keys_buildCallbacks L x).mp h
  · intro res hres x hx
    rw [update_data] at hres ⊢
    rw [updateGo_attempted_of_ok known conn (buildCallbacks L)
      ⟨c0, [], [], []⟩ res hres]
    simp
    exact (mem_keys_buildCallbacks L x).mpr hx

/-- Claim C1, witness: a completed cycle attempts every address of the
interest union, here address 20 contributed by the second listener. -/
theorem C1_fetch_set_witness :
    20 ∈ (update_data (fun _ => true) (fun _ _ => some (Value.int 5))
      [(0, [10]), (1, [20])] []).attempted :=
  (C1_fetch_set (fun _ => true) (fun _ _ => some (Value.int 5))
      [(0, [10]), (1, [20])] []).2 [(10, Value.int 5), (20, Value.int 5)]
    rfl 20 (by decide)

/-- Claim C1, counterexample to the claim as stated: with listeners
watching addresses 1 and 2 and every read attempt on every address
failing transiently, the cycle aborts on address 1, so address 2 is in
the interest union but is never attempted during the cycle. -/
theorem C1_counterexample :
    2 ∈ interestUnion [(0, [1]), (1, [2])] ∧
    2 ∉ (update_data (fun _ => true) (fun _ _ => none)
      [(0, [1]), (1, [2])] []).attempted := by
  exact ⟨by decide, by decide⟩

/-- Claim C2: if an address `a` whose resolution is attempted during the
cycle is a known coil and every one of the `COIL_READ_RETRIES = 5` read
attempts on it fails transiently, then the cycle aborts with
`UpdateFailed`: `a` is the last address attempted, the remaining
iteration order is never fetched, and every known address attempted
before `a` was read successfully and still holds its newly read value in
the cache after the abort (no rollback). -/
theorem C2_abort_no_rollback (known : Address → Bool)
    (conn : Address → Nat → Option Value) (L : Listeners) (c0 : Cache)
    (a : Address) (ha : a ∈ (update_data known conn L c0).attempted)
    (hk : known a = true)
    (hf : ∀ k, k < COIL_READ_RETRIES → conn a k = none) :
    (update_data known conn L c0).outcome = Except.error () ∧
    (update_data known conn L c0).attempted.getLast? = some a ∧
    (∃ r, keys (buildCallbacks L) =
      (update_data known conn L c0).attempted ++ r) ∧
    (∀ b, b ∈ (update_data known conn L c0).attempted → b ≠ a →
      known b = true → ∃ v, read_coil conn b = some v ∧
        lookupD (update_data known conn L c0).cache b = some v) := by
  have hrd : read_coil conn a = none := read_coil_none_of_fail conn a hf
  have h := updateGo_abort known conn (buildCallbacks L) ⟨c0, [], [], []⟩ a
    (nodup_keys_buildCallbacks L) (by simp) ha hk hrd
  obtain ⟨h1, h2, ⟨r, h3⟩, h4⟩ := h
  refine ⟨h1, h2, ⟨r, by simpa using h3⟩, ?_⟩
  intro b hb hba hkb
  exact h4 b hb (by simp) hba hkb

/-- Claim C2, witness: one listener watches addresses 1 and 2; address 1
reads successfully, every attempt on address 2 fails transiently.  The
cycle aborts after attempting exactly the addresses 1 and 2, and the
cache still holds the value read for address 1. -/
theorem C2_abort_no_rollback_witness :
    (update_data (fun _ => true)
      (fun a _ => if a == 1 then some (Value.int 7) else none)
      [(0, [1, 2])] []).outcome = Except.error () ∧
    (update_data (fun _ => true)
      (fun a _ => if a == 1 then some (Value.int 7) else none)
      [(0, [1, 2])] []).attempted.getLast? = some 2 ∧
    (∃ r, keys (buildCallbacks [(0, [1, 2])]) =
      (update_data (fun _ => true)
        (fun a _ => if a == 1 then some (Value.int 7) else none)
        [(0, [1, 2])] []).attempted ++ r) ∧
    (∀ b, b ∈ (update_data (fun _ => true)
        (fun a _ => if a == 1 then some (Value.int 7) else none)
        [(0, [1, 2])] []).attempted → b ≠ 2 →
      (fun (_ : Address) => true) b = true →
      ∃ v, read_coil (fun a _ => if a == 1 then some (Value.int 7) else none)
          b = some v ∧
        lookupD (update_data (fun _ => true)
          (fun a _ => if a == 1 then some (Value.int 7) else none)
          [(0, [1, 2])] []).cache b = some v) :=
  C2_abort_no_rollback (fun _ => true)
    (fun a _ => if a == 1 then some (Value.int 7) else none)
    [(0, [1, 2])] [] 2 (by decide) rfl (fun _ _ => rfl)

/-- Claim C3, amended: notifications are issued per resolved address, not
once per cycle: in a cycle that completes without aborting, a listener
with a given interest set receives exactly one notification for each
watched address — whether the address was read successfully or was
skipped as `NotFound` — so a listener watching two processed addresses is
notified twice, and a listener whose only watched address is `NotFound`
is still notified once. -/
theorem C3_per_address_notifications (known : Address → Bool)
    (conn : Address → Nat → Option Value) (L : Listeners) (c0 : Cache)
    (m : ListenerId) (interest : List Address) (res : Cache)
    (hnd : (L.map Prod.fst).Nodup) (hm : (m, interest) ∈ L)
    (hok : (update_data known conn L c0).outcome = Except.ok res) :
    noteCount (update_data known conn L c0).notifs m = interest.length := by
  rw [update_data] at hok ⊢
  rw [updateGo_noteCount known conn (buildCallbacks L) ⟨c0, [], [], []⟩
    res m hok]
  rw [cbsListCount_buildCallbacks, watchTotal_of_mem m interest L hnd hm]
  simp [noteCount]

/-- Claim C3, witness: in the spec's own scenario (listeners watching
sets containing 10 and 20, address 10 succeeds, address 20 is missing)
the listener watching both addresses is notified twice. -/
theorem C3_per_address_notifications_witness :
    noteCount (update_data (fun a => a == 10)
      (fun _ _ => some (Value.int 5))
      [(0, [10]), (1, [10, 20]), (2, [20])] []).notifs 1 = 2 :=
  C3_per_address_notifications (fun a => a == 10)
    (fun _ _ => some (Value.int 5)) [(0, [10]), (1, [10, 20]), (2, [20])]
    [] 1 [10, 20] [(10, Value.int 5)] (by decide) (by decide) rfl

/-- Claim C3, counterexample to the claim as stated, at the spec's own
scenario: listeners 0 watching only address 10, 1 watching addresses 10
and 20, 2 watching only address 20; address 10 reads value 5, address 20
is `NotFound`.  The refresh returns the map with only address 10 and no
error, but listener 1 — for which at least one watched address was
updated — receives two notifications rather than exactly one, and
listener 2 — for which only a `NotFound` occurred — receives one
notification rather than zero. -/
theorem C3_counterexample :
    (update_data (fun a => a == 10) (fun _ _ => some (Value.int 5))
      [(0, [10]), (1, [10, 20]), (2, [20])] []).outcome =
        Except.ok [(10, Value.int 5)] ∧
    ¬ noteCount (update_data (fun a => a == 10)
      (fun _ _ => some (Value.int 5))
      [(0, [10]), (1, [10, 20]), (2, [20])] []).notifs 1 = 1 ∧
    ¬ noteCount (update_data (fun a => a == 10)
      (fun _ _ => some (Value.int 5))
      [(0, [10]), (1, [10, 20]), (2, [20])] []).notifs 2 = 0 :=
  ⟨rfl, by decide, by decide⟩

/-- Claim C4: a `NotFound` address `a` never receives a cache entry (its
cache binding stays whatever it was before the cycle), is absent from
the returned map, and the cycle neither aborts nor skips other addresses
on account of it: when every known address in the callbacks dict reads
successfully, the cycle completes and attempts the entire iteration
order, `NotFound` addresses included. -/
theorem C4_notfound_skipped (known : Address → Bool)
    (conn : Address → Nat → Option Value) (L : Listeners) (c0 : Cache)
    (a : Address) (hna : known a = false) :
    lookupD (update_data known conn L c0).cache a = lookupD c0 a ∧
    (∀ res, (update_data known conn L c0).outcome = Except.ok res →
      lookupD res a = none) ∧
    ((∀ b, b ∈ keys (buildCallbacks L) → known b = true →
        read_coil conn b ≠ none) →
      ∃ res, (update_data known conn L c0).outcome = Except.ok res ∧
        (update_data known conn L c0).attempted =
          keys (buildCallbacks L)) := by
  refine ⟨?_, ?_, ?_⟩
  · exact updateGo_unknown_cache known conn (buildCallbacks L)
      ⟨c0, [], [], []⟩ a hna
  · intro res hres
    have h := updateGo_unknown_result known conn (buildCallbacks L)
      ⟨c0, [], [], []⟩ a res hna hres
    simpa [lookupD] using h
  · intro hreads
    obtain ⟨res, hres⟩ := updateGo_ok_of_reads known conn (buildCallbacks L)
      ⟨c0, [], [], []⟩ hreads
    refine ⟨res, hres, ?_⟩
    rw [update_data,
      updateGo_attempted_of_ok known conn (buildCallbacks L)
        ⟨c0, [], [], []⟩ res hres]
    simp

/-- Claim C4, witness: address 20 is `NotFound`, address 10 reads
successfully; the pre-existing cache entry for address 20 is untouched,
and the cycle completes attempting both addresses. -/
theorem C4_notfound_skipped_witness :
    lookupD (update_data (fun a => a == 10) (fun _ _ => some (Value.int 5))
      [(0, [10, 20])] [(20, Value.int 9)]).cache 20 = some (Value.int 9) ∧
    (∃ res, (update_data (fun a => a == 10)
        (fun _ _ => some (Value.int 5))
        [(0, [10, 20])] [(20, Value.int 9)]).outcome = Except.ok res ∧
      (update_data (fun a => a == 10) (fun _ _ => some (Value.int 5))
        [(0, [10, 20])] [(20, Value.int 9)]).attempted =
          keys (buildCallbacks [(0, [10, 20])])) := by
  have h := C4_notfound_skipped (fun a => a == 10)
    (fun _ _ => some (Value.int 5)) [(0, [10, 20])] [(20, Value.int 9)]
    20 rfl
  exact ⟨by rw [h.1]; rfl, h.2.2 (by decide)⟩

/-- Claim C5: on every successful per-address read the fresh value is in
the cache at the moment each callback for that address is invoked (the
snapshot a callback would observe already contains the new value), and
the map returned by a completed refresh binds an address exactly when
that address is in the callbacks dict, is a known coil, and was read
successfully this cycle — addresses skipped or never fetched are absent
even if present in the cache. -/
theorem C5_fresh_cache_and_result (known : Address → Bool)
    (conn : Address → Nat → Option Value) (L : Listeners) (c0 : Cache) :
    (∀ n, n ∈ (update_data known conn L c0).notifs →
      known n.address = true → ∀ v, read_coil conn n.address = some v →
        lookupD n.cache n.address = some v) ∧
    (∀ res, (update_data known conn L c0).outcome = Except.ok res →
      ∀ x v, lookupD res x = some v ↔
        (x ∈ keys (buildCallbacks L) ∧ known x = true ∧
          read_coil conn x = some v)) := by
  constructor
  · exact updateGo_notifs_fresh known conn (buildCallbacks L)
      ⟨c0, [], [], []⟩ (by intro n hn _ _ _; simp at hn)
  · intro res hres x v
    have h := updateGo_result_spec known conn (buildCallbacks L)
      ⟨c0, [], [], []⟩ res (nodup_keys_buildCallbacks L)
      (fun _ _ => rfl) hres x v
    rw [h]
    simp [lookupD]

/-- Claim C5, witness: the single callback invocation for address 10
observes the freshly written value, and the returned map binds address
10 to the value read. -/
theorem C5_fresh_cache_and_result_witness :
    lookupD (Notif.mk 0 10 [(10, Value.int 5)]).cache 10 =
      some (Value.int 5) ∧
    lookupD [(10, Value.int 5)] 10 = some (Value.int 5) := by
  have h := C5_fresh_cache_and_result (fun _ => true)
    (fun _ _ => some (Value.int 5)) [(0, [10])] []
  exact ⟨h.1 ⟨0, 10, [(10, Value.int 5)]⟩ (by decide) rfl (Value.int 5) rfl,
    (h.2 [(10, Value.int 5)] rfl 10 (Value.int 5)).mpr (by decide)⟩

/-- Claim C6: a write that succeeds at the data source raises nothing,
invokes listener callbacks only when the cache already holds at least one
entry — with an empty cache nothing is notified and the cache is left
empty — and with a non-empty cache every registered listener watching the
written address is among those notified. -/
theorem C6_write_notify_guard (wconn : Nat → Bool) (L : Listeners)
    (c : Cache) (a : Address) (v : Value) (aliased : Bool)
    (hw : wconn 0 = true) :
    (async_write_coil wconn L c a v aliased).raised = false ∧
    (c = [] → (async_write_coil wconn L c a v aliased).notified = [] ∧
      (async_write_coil wconn L c a v aliased).cache = c) ∧
    (c ≠ [] → ∀ l int, (l, int) ∈ L → a ∈ int →
      l ∈ (async_write_coil wconn L c a v aliased).notified) := by
  by_cases hc : c = []
  · subst hc
    rw [async_write_coil_ok_empty wconn L a v aliased hw]
    exact ⟨rfl, fun _ => ⟨rfl, rfl⟩, fun h => absurd rfl h⟩
  · rw [async_write_coil_ok_nonempty wconn L c a v aliased hw hc]
    refine ⟨rfl, fun h => absurd h hc, fun _ l int hmem _ => ?_⟩
    exact List.mem_map_of_mem Prod.fst hmem

/-- Claim C6, witness: a successful write into an empty cache notifies
nobody, while the same write into a populated cache (whose coil the
caller's coil aliases) notifies the registered listener watching the
written address. -/
theorem C6_write_notify_guard_witness :
    (async_write_coil (fun _ => true) [(5, [10])] [] 10
      (Value.int 2) false).notified = [] ∧
    5 ∈ (async_write_coil (fun _ => true) [(5, [10])]
      [(10, Value.int 1)] 10 (Value.int 2) true).notified :=
  ⟨((C6_write_notify_guard (fun _ => true) [(5, [10])] [] 10
      (Value.int 2) false rfl).2.1 rfl).1,
    (C6_write_notify_guard (fun _ => true) [(5, [10])]
      [(10, Value.int 1)] 10 (Value.int 2) true rfl).2.2 (by decide) 5 [10]
      (by decide) (by decide)⟩

/-- Claim C7, amended: a successful `write(A, v)` followed immediately by
a cache read for A returns v, provided the cache already held at least
one entry when the write happened (that is, after some successful
refresh has populated it); with a still-empty cache the write leaves the
cache untouched and the read returns `None` (see the counterexample). -/
theorem C7_write_read_round_trip (wconn : Nat → Bool) (L : Listeners)
    (c : Cache) (a : Address) (v : Value) (aliased : Bool)
    (hw : wconn 0 = true) (hc : c ≠ []) :
    get_coil_value (async_write_coil wconn L c a v aliased).cache a =
      some v := by
  rw [async_write_coil_ok_nonempty wconn L c a v aliased hw hc]
  exact lookupD_insertD_self (writeMutate c a v aliased) a v

/-- Claim C7, witness: with one prior cache entry for address 3, writing
value 5 to address 10 and reading address 10 back returns 5. -/
theorem C7_write_read_round_trip_witness :
    get_coil_value (async_write_coil (fun _ => true) []
      [(3, Value.int 1)] 10 (Value.int 5) true).cache 10 =
        some (Value.int 5) :=
  C7_write_read_round_trip (fun _ => true) [] [(3, Value.int 1)] 10
    (Value.int 5) true rfl (by decide)

/-- Claim C7, counterexample to the claim as stated: a write that
succeeds at the data source while the cache is still empty does not
store the value, so the immediate cache read returns `None`, not the
written value. -/
theorem C7_counterexample :
    (async_write_coil (fun _ => true) [(0, [10])] [] 10
      (Value.int 5) false).raised = false ∧
    get_coil_value (async_write_coil (fun _ => true) [(0, [10])] [] 10
      (Value.int 5) false).cache 10 = none :=
  ⟨rfl, rfl⟩

/-- Claim C8, amended: a write whose single data-source attempt fails
propagates the failure to the caller with no retry — even when every
later attempt would have succeeded, as in the witness — and invokes no
listener callback; the cache dict itself performs no assignment: no
entry is added or removed and every address other than the written one
keeps its value, and when the caller's coil does not alias the cached
coil the cache is entirely unchanged.  However, on the standard entity
path — where the caller's coil is the cached coil for the written
address — the pre-write `coil.value = value` mutation leaves the
attempted value visible in the cache even though the write failed. -/
theorem C8_write_failure (wconn : Nat → Bool) (L : Listeners) (c : Cache)
    (a : Address) (v : Value) (aliased : Bool) (hw : wconn 0 = false) :
    (async_write_coil wconn L c a v aliased).raised = true ∧
    (async_write_coil wconn L c a v aliased).notified = [] ∧
    keys (async_write_coil wconn L c a v aliased).cache = keys c ∧
    (∀ x, x ≠ a →
      lookupD (async_write_coil wconn L c a v aliased).cache x =
        lookupD c x) ∧
    (aliased = false → (async_write_coil wconn L c a v aliased).cache = c) ∧
    (aliased = true → ∀ w, lookupD c a = some w →
      lookupD (async_write_coil wconn L c a v aliased).cache a =
        some v) := by
  rw [async_write_coil_fail wconn L c a v aliased hw]
  refine ⟨rfl, rfl, keys_writeMutate c a v aliased,
    fun x hx => lookupD_writeMutate_ne c a x v aliased hx, ?_, ?_⟩
  · intro hal
    rw [hal]
    exact writeMutate_not_aliased c a v
  · intro hal w hwc
    rw [hal]
    exact lookupD_writeMutate_self c a v w hwc

/-- Claim C8, witness: the first write attempt fails while every retry
would succeed; the failure still propagates, nothing is notified, and —
the caller's coil being the cached coil for address 10 — the attempted
value 5 is already visible in the cache. -/
theorem C8_write_failure_witness :
    (async_write_coil (fun k => decide (0 < k)) [(0, [10])]
      [(10, Value.int 1)] 10 (Value.int 5) true).raised = true ∧
    (async_write_coil (fun k => decide (0 < k)) [(0, [10])]
      [(10, Value.int 1)] 10 (Value.int 5) true).notified = [] ∧
    lookupD (async_write_coil (fun k => decide (0 < k)) [(0, [10])]
      [(10, Value.int 1)] 10 (Value.int 5) true).cache 10 =
        some (Value.int 5) := by
  have h := C8_write_failure (fun k => decide (0 < k)) [(0, [10])]
    [(10, Value.int 1)] 10 (Value.int 5) true rfl
  exact ⟨h.1, h.2.1, h.2.2.2.2.2 rfl (Value.int 1) rfl⟩

/-- Claim C8, counterexample to the claim as stated: the cache holds the
coil for address 10 with value 1, the entity writes value 5 through that
very coil object, and the data-source write fails.  The failure
propagates, yet the cache now reads back value 5 for address 10 — the
cache mapping was modified by a failed write. -/
theorem C8_counterexample :
    (async_write_coil (fun _ => false) [(0, [10])] [(10, Value.int 1)] 10
      (Value.int 5) true).raised = true ∧
    ¬ (async_write_coil (fun _ => false) [(0, [10])] [(10, Value.int 1)] 10
      (Value.int 5) true).cache = [(10, Value.int 1)] ∧
    get_coil_value (async_write_coil (fun _ => false) [(0, [10])]
      [(10, Value.int 1)] 10 (Value.int 5) true).cache 10 =
        some (Value.int 5) :=
  ⟨rfl, by decide, rfl⟩

/-- Claim C9: a successful write with a non-empty cache notifies every
currently registered listener — the fanout is `async_update_listeners`,
which is not restricted to the listeners watching the written address. -/
theorem C9_write_notifies_all (wconn : Nat → Bool) (L : Listeners)
    (c : Cache) (a : Address) (v : Value) (aliased : Bool)
    (hw : wconn 0 = true) (hc : c ≠ []) :
    (async_write_coil wconn L c a v aliased).notified =
      async_update_listeners L ∧
    (∀ l int, (l, int) ∈ L →
      l ∈ (async_write_coil wconn L c a v aliased).notified) := by
  rw [async_write_coil_ok_nonempty wconn L c a v aliased hw hc]
  exact ⟨rfl, fun l int hmem => List.mem_map_of_mem Prod.fst hmem⟩

/-- Claim C9, witness: listener 1 watches only address 99, yet a
successful write to address 10 with a non-empty cache notifies it. -/
theorem C9_write_notifies_all_witness :
    1 ∈ (async_write_coil (fun _ => true) [(0, [10]), (1, [99])]
      [(10, Value.int 1)] 10 (Value.int 5) true).notified :=
  (C9_write_notifies_all (fun _ => true) [(0, [10]), (1, [99])]
    [(10, Value.int 1)] 10 (Value.int 5) true rfl (by decide)).2 1 [99]
    (by decide)

/-- Claim C10: `get_coil_float` returns `None` when the cached value is
the integer 0 or the float 0.0 (Python truthiness), returns a float only
when a cache entry exists and its value is truthy, and returns `None`
when the address has no cache entry at all. -/
theorem C10_float_truthiness (pf : String → Option Rat) (c : Cache)
    (a : Address) :
    (get_coil_value c a = some (Value.int 0) →
      get_coil_float pf c a = Except.ok none) ∧
    (get_coil_value c a = some (Value.float 0) →
      get_coil_float pf c a = Except.ok none) ∧
    (∀ q, get_coil_float pf c a = Except.ok (some q) →
      ∃ v, get_coil_value c a = some v ∧ truthy v = true) ∧
    (lookupD c a = none → get_coil_float pf c a = Except.ok none) := by
  refine ⟨?_, ?_, ?_, ?_⟩
  · intro h
    simp [get_coil_float, h, truthy]
  · intro h
    simp [get_coil_float, h, truthy]
  · intro q hq
    cases hv : get_coil_value c a with
    | none => simp [get_coil_float, hv] at hq
    | some v =>
      refine ⟨v, rfl, ?_⟩
      by_contra ht
      rw [Bool.not_eq_true] at ht
      simp [get_coil_float, hv, ht] at hq
  · intro h
    have h' : get_coil_value c a = none := h
    simp [get_coil_float, h']

/-- Claim C10, witness: the cache holds integer 0 at address 1, float
0.0 at address 2 and integer 7 at address 3; addresses 1 and 2 read back
as `None`, address 4 (absent) reads back as `None`, and the float read
of address 3 implies a truthy cached value. -/
theorem C10_float_truthiness_witness :
    get_coil_float (fun _ => none)
      [(1, Value.int 0), (2, Value.float 0), (3, Value.int 7)] 1 =
        Except.ok none ∧
    get_coil_float (fun _ => none)
      [(1, Value.int 0), (2, Value.float 0), (3, Value.int 7)] 2 =
        Except.ok none ∧
    get_coil_float (fun _ => none)
      [(1, Value.int 0), (2, Value.float 0), (3, Value.int 7)] 4 =
        Except.ok none ∧
    (∃ v, get_coil_value
      [(1, Value.int 0), (2, Value.float 0), (3, Value.int 7)] 3 =
        some v ∧ truthy v = true) :=
  ⟨(C10_float_truthiness (fun _ => none)
      [(1, Value.int 0), (2, Value.float 0), (3, Value.int 7)] 1).1 rfl,
    (C10_float_truthiness (fun _ => none)
      [(1, Value.int 0), (2, Value.float 0), (3, Value.int 7)] 2).2.1 rfl,
    (C10_float_truthiness (fun _ => none)
      [(1, Value.int 0), (2, Value.float 0), (3, Value.int 7)] 4).2.2.2 rfl,
    (C10_float_truthiness (fun _ => none)
      [(1, Value.int 0), (2, Value.float 0), (3, Value.int 7)] 3).2.2.1
      7 rfl⟩

end NibeHeatPump
